import Mathlib

set_option linter.unusedSectionVars false

/-!
Shallow embedding of the hierarchical transform system of the Silnik_3d
repository (files src/Transform/Transform.cpp, src/Transform/Transform.hpp,
src/SceneManager/SceneManager.cpp, src/SceneManager/SceneManager.hpp).

Scalars of the C++ code (float) are modelled by an arbitrary linearly
ordered field K; theorems instantiate K at ℚ (for executable concrete
scenarios) or at ℝ (for statements that involve square roots and
trigonometric functions).  The glm library functions used by the code
(translate, scale, mat4_cast, quaternion product, quaternion-vector
product, normalize, angleAxis, quaternion-from-Euler constructor) are
embedded by their exact glm formulas.  Functions of the C++ runtime that
compute square roots, sines and cosines are abstracted as explicit
function parameters of the corresponding definitions and are instantiated
with Real.sqrt, Real.sin, Real.cos in the theorems.
-/

/-- Component type of glm::vec3 (three scalars x, y, z). -/
structure Vec3 (K : Type) where
  x : K
  y : K
  z : K
deriving DecidableEq

/-- Component type of glm::quat (scalar part w, vector part x, y, z). -/
structure Quat (K : Type) where
  w : K
  x : K
  y : K
  z : K
deriving DecidableEq

/-- A 4x4 matrix, written row-major: aRC is the entry in row R, column C.
Models glm::mat4 acting on column vectors (glm stores columns, but the
mathematical product implemented by glm::operator* is the ordinary matrix
product, which is what is embedded here). -/
structure Mat4 (K : Type) where
  a00 : K
  a01 : K
  a02 : K
  a03 : K
  a10 : K
  a11 : K
  a12 : K
  a13 : K
  a20 : K
  a21 : K
  a22 : K
  a23 : K
  a30 : K
  a31 : K
  a32 : K
  a33 : K
deriving DecidableEq

variable {K : Type} [CommRing K]

/-- Component-wise vector addition (glm::vec3 operator+). -/
def vadd (a b : Vec3 K) : Vec3 K :=
  ⟨a.x + b.x, a.y + b.y, a.z + b.z⟩

/-- Component-wise vector product (glm::vec3 operator*, used by
Transform::scale for m_scale *= scaleFactor). -/
def vmul (a b : Vec3 K) : Vec3 K :=
  ⟨a.x * b.x, a.y * b.y, a.z * b.z⟩

/-- Scalar multiple of a vector. -/
def vsmul (c : K) (v : Vec3 K) : Vec3 K :=
  ⟨c * v.x, c * v.y, c * v.z⟩

/-- glm dot product of two vec3. -/
def vdot (a b : Vec3 K) : K :=
  a.x * b.x + a.y * b.y + a.z * b.z

/-- glm cross product of two vec3. -/
def vcross (a b : Vec3 K) : Vec3 K :=
  ⟨a.y * b.z - a.z * b.y, a.z * b.x - a.x * b.z, a.x * b.y - a.y * b.x⟩

/-- The zero vector (glm::vec3(0.0f)). -/
def v0 : Vec3 K := ⟨0, 0, 0⟩

/-- The all-ones vector (glm::vec3(1.0f)). -/
def v1 : Vec3 K := ⟨1, 1, 1⟩

/-- glm::normalize for vec3: v * inversesqrt(dot(v, v)); the square-root
function of the runtime is passed explicitly as sq. -/
def vnormalize {F : Type} [LinearOrderedField F] (sq : F → F) (v : Vec3 F) : Vec3 F :=
  vsmul (1 / sq (vdot v v)) v

/-- The identity quaternion glm::identity of glm::quat (w = 1). -/
def qid : Quat K := ⟨1, 0, 0, 0⟩

/-- Hamilton product of two quaternions (glm::quat operator*). -/
def qmul (p q : Quat K) : Quat K :=
  ⟨p.w * q.w - p.x * q.x - p.y * q.y - p.z * q.z,
   p.w * q.x + p.x * q.w + p.y * q.z - p.z * q.y,
   p.w * q.y + p.y * q.w + p.z * q.x - p.x * q.z,
   p.w * q.z + p.z * q.w + p.x * q.y - p.y * q.x⟩

/-- glm dot product of a quaternion with itself (squared length). -/
def qnormSq (q : Quat K) : K :=
  q.w * q.w + q.x * q.x + q.y * q.y + q.z * q.z

/-- Scalar multiple of a quaternion. -/
def qsmul (c : K) (q : Quat K) : Quat K :=
  ⟨c * q.w, c * q.x, c * q.y, c * q.z⟩

/-- glm::normalize for quaternions: computes len = sqrt(dot(q, q)); if
len <= 0 it returns the identity quaternion (the glm guard), otherwise
q * (1 / len).  The runtime square-root function is passed explicitly
as sq. -/
def qnormalize {F : Type} [LinearOrderedField F] (sq : F → F) (q : Quat F) : Quat F :=
  let len := sq (qnormSq q)
  if len ≤ 0 then qid else qsmul (1 / len) q

/-- glm quaternion-vector product (operator*(quat, vec3)):
v + 2 * cross(u, cross(u, v) + w * v) with u the vector part. -/
def qrot (q : Quat K) (v : Vec3 K) : Vec3 K :=
  let u : Vec3 K := ⟨q.x, q.y, q.z⟩
  vadd v (vsmul 2 (vcross u (vadd (vcross u v) (vsmul q.w v))))

/-- glm::angleAxis(angle, axis): quaternion with scalar part cos(angle/2)
and vector part axis * sin(angle/2).  Cosine and sine of the runtime are
passed explicitly. -/
def angleAxis {F : Type} [LinearOrderedField F] (cosF sinF : F → F) (angle : F) (axis : Vec3 F) : Quat F :=
  ⟨cosF (angle / 2), sinF (angle / 2) * axis.x,
   sinF (angle / 2) * axis.y, sinF (angle / 2) * axis.z⟩

/-- glm::quat(vec3) constructor from Euler angles in radians
(pitch-yaw-roll formula of glm): with c = cos(e * 0.5), s = sin(e * 0.5)
componentwise, w = cx cy cz + sx sy sz, x = sx cy cz − cx sy sz,
y = cx sy cz + sx cy sz, z = cx cy sz − sx sy cz. -/
def eulerToQuat {F : Type} [LinearOrderedField F] (cosF sinF : F → F) (e : Vec3 F) : Quat F :=
  let cx := cosF (e.x / 2)
  let cy := cosF (e.y / 2)
  let cz := cosF (e.z / 2)
  let sx := sinF (e.x / 2)
  let sy := sinF (e.y / 2)
  let sz := sinF (e.z / 2)
  ⟨cx * cy * cz + sx * sy * sz,
   sx * cy * cz - cx * sy * sz,
   cx * sy * cz + sx * cy * sz,
   cx * cy * sz - sx * sy * cz⟩

/-- The identity 4x4 matrix (glm::mat4(1.0f)). -/
def mat4id : Mat4 K :=
  ⟨1, 0, 0, 0,
   0, 1, 0, 0,
   0, 0, 1, 0,
   0, 0, 0, 1⟩

/-- Matrix product of two 4x4 matrices (glm::mat4 operator*). -/
def matMul (A B : Mat4 K) : Mat4 K :=
  ⟨A.a00 * B.a00 + A.a01 * B.a10 + A.a02 * B.a20 + A.a03 * B.a30,
   A.a00 * B.a01 + A.a01 * B.a11 + A.a02 * B.a21 + A.a03 * B.a31,
   A.a00 * B.a02 + A.a01 * B.a12 + A.a02 * B.a22 + A.a03 * B.a32,
   A.a00 * B.a03 + A.a01 * B.a13 + A.a02 * B.a23 + A.a03 * B.a33,
   A.a10 * B.a00 + A.a11 * B.a10 + A.a12 * B.a20 + A.a13 * B.a30,
   A.a10 * B.a01 + A.a11 * B.a11 + A.a12 * B.a21 + A.a13 * B.a31,
   A.a10 * B.a02 + A.a11 * B.a12 + A.a12 * B.a22 + A.a13 * B.a32,
   A.a10 * B.a03 + A.a11 * B.a13 + A.a12 * B.a23 + A.a13 * B.a33,
   A.a20 * B.a00 + A.a21 * B.a10 + A.a22 * B.a20 + A.a23 * B.a30,
   A.a20 * B.a01 + A.a21 * B.a11 + A.a22 * B.a21 + A.a23 * B.a31,
   A.a20 * B.a02 + A.a21 * B.a12 + A.a22 * B.a22 + A.a23 * B.a32,
   A.a20 * B.a03 + A.a21 * B.a13 + A.a22 * B.a23 + A.a23 * B.a33,
   A.a30 * B.a00 + A.a31 * B.a10 + A.a32 * B.a20 + A.a33 * B.a30,
   A.a30 * B.a01 + A.a31 * B.a11 + A.a32 * B.a21 + A.a33 * B.a31,
   A.a30 * B.a02 + A.a31 * B.a12 + A.a32 * B.a22 + A.a33 * B.a32,
   A.a30 * B.a03 + A.a31 * B.a13 + A.a32 * B.a23 + A.a33 * B.a33⟩

/-- Application of a 4x4 matrix to a point: glm computes
vec3(M * vec4(point, 1.0f)), i.e. the first three components of the
product with the homogeneous column vector. -/
def applyPoint (M : Mat4 K) (v : Vec3 K) : Vec3 K :=
  ⟨M.a00 * v.x + M.a01 * v.y + M.a02 * v.z + M.a03,
   M.a10 * v.x + M.a11 * v.y + M.a12 * v.z + M.a13,
   M.a20 * v.x + M.a21 * v.y + M.a22 * v.z + M.a23⟩

/-- glm::translate(glm::mat4(1.0f), p): identity with translation column p. -/
def translateMat (p : Vec3 K) : Mat4 K :=
  ⟨1, 0, 0, p.x,
   0, 1, 0, p.y,
   0, 0, 1, p.z,
   0, 0, 0, 1⟩

/-- glm::scale(glm::mat4(1.0f), s): diagonal scaling matrix. -/
def scaleMat (s : Vec3 K) : Mat4 K :=
  ⟨s.x, 0, 0, 0,
   0, s.y, 0, 0,
   0, 0, s.z, 0,
   0, 0, 0, 1⟩

/-- glm::mat4_cast(q): rotation matrix of a quaternion, the glm formula
(column c, row r of glm Result[c][r] is entry (r, c) here), with an affine
last row and column. -/
def mat4Cast (q : Quat K) : Mat4 K :=
  ⟨1 - 2 * (q.y * q.y + q.z * q.z), 2 * (q.x * q.y - q.w * q.z),
     2 * (q.x * q.z + q.w * q.y), 0,
   2 * (q.x * q.y + q.w * q.z), 1 - 2 * (q.x * q.x + q.z * q.z),
     2 * (q.y * q.z - q.w * q.x), 0,
   2 * (q.x * q.z - q.w * q.y), 2 * (q.y * q.z + q.w * q.x),
     1 - 2 * (q.x * q.x + q.y * q.y), 0,
   0, 0, 0, 1⟩

/-- The Space enumeration of Transform.hpp: coordinate space selector. -/
inductive Space where
  | LOCAL : Space
  | WORLD : Space
deriving DecidableEq

/-- State of one Transform object (Transform.hpp private fields).  The
parent pointer and the children pointers are modelled as numeric object
identities (Option ℕ for the nullable parent pointer). -/
structure Frame (K : Type) where
  position : Vec3 K
  rotation : Quat K
  scale : Vec3 K
  localMatrix : Mat4 K
  worldMatrix : Mat4 K
  dirty : Bool
  parent : Option ℕ
  children : List ℕ
deriving DecidableEq

/-- The local matrix computed by Transform::updateMatrices:
translation * rotation * scaling (T * R * S, left-associated product). -/
def localMatrixOf (f : Frame K) : Mat4 K :=
  matMul (matMul (translateMat f.position) (mat4Cast f.rotation)) (scaleMat f.scale)

/-- Default constructor Transform::Transform(): origin, identity rotation,
unit scale, identity cached matrices, no parent, no children, dirty. -/
def defaultFrame : Frame K :=
  { position := v0, rotation := qid, scale := v1,
    localMatrix := mat4id, worldMatrix := mat4id,
    dirty := true, parent := none, children := [] }

/-- Parameterized constructor Transform::Transform(position, rotation,
scale): stores the arguments unchanged (no normalization of the rotation)
and calls updateMatrices, which for a parentless, childless fresh object
sets localMatrix = worldMatrix = T * R * S and clears the dirty flag. -/
def mkTransform (position : Vec3 K) (rotation : Quat K) (scale : Vec3 K) : Frame K :=
  let f0 : Frame K :=
    { position := position, rotation := rotation, scale := scale,
      localMatrix := mat4id, worldMatrix := mat4id,
      dirty := true, parent := none, children := [] }
  let lm := localMatrixOf f0
  { f0 with localMatrix := lm, worldMatrix := lm, dirty := false }

/-- Transform::setPosition: overwrite position, mark dirty. -/
def setPosition (p : Vec3 K) (f : Frame K) : Frame K :=
  { f with position := p, dirty := true }

/-- Transform::setRotation(quat): store glm::normalize(rotation), mark
dirty.  The runtime square root is passed as sq. -/
def setRotationQ {F : Type} [LinearOrderedField F] (sq : F → F) (q : Quat F) (f : Frame F) : Frame F :=
  { f with rotation := qnormalize sq q, dirty := true }

/-- Transform::setRotation(eulerAngles): convert degrees to radians
(multiplication by pi/180, the constant pi passed as piK) and store the
glm::quat Euler constructor result, mark dirty. -/
def setRotationEuler {F : Type} [LinearOrderedField F] (cosF sinF : F → F) (piK : F) (e : Vec3 F) (f : Frame F) : Frame F :=
  let radians : Vec3 F := vsmul (piK / 180) e
  { f with rotation := eulerToQuat cosF sinF radians, dirty := true }

/-- Transform::setScale: overwrite scale, mark dirty. -/
def setScale (s : Vec3 K) (f : Frame K) : Frame K :=
  { f with scale := s, dirty := true }

/-- Transform::translate(translation, space): LOCAL adds
rotation * translation (glm quaternion-vector product) to position, WORLD
adds the translation directly; marks dirty. -/
def translateF (t : Vec3 K) (space : Space) (f : Frame K) : Frame K :=
  match space with
  | Space.LOCAL => { f with position := vadd f.position (qrot f.rotation t), dirty := true }
  | Space.WORLD => { f with position := vadd f.position t, dirty := true }

/-- Transform::rotate(quat, space): LOCAL pre-multiplies
(rotation * m_rotation), WORLD post-multiplies (m_rotation * rotation);
the result is then normalized; marks dirty. -/
def rotateF {F : Type} [LinearOrderedField F] (sq : F → F) (r : Quat F) (space : Space) (f : Frame F) : Frame F :=
  let newRot :=
    match space with
    | Space.LOCAL => qmul r f.rotation
    | Space.WORLD => qmul f.rotation r
  { f with rotation := qnormalize sq newRot, dirty := true }

/-- Transform::rotate(axis, angleDegrees, space): converts degrees to
radians, builds glm::angleAxis(radians, glm::normalize(axis)) and
delegates to the quaternion rotate. -/
def rotateAxisF {F : Type} [LinearOrderedField F] (sq cosF sinF : F → F) (piK : F) (axis : Vec3 F) (angleDegrees : F)
    (space : Space) (f : Frame F) : Frame F :=
  let radians := angleDegrees * (piK / 180)
  rotateF sq (angleAxis cosF sinF radians (vnormalize sq axis)) space f

/-- Transform::scale(scaleFactor): component-wise cumulative scaling
(m_scale *= scaleFactor), marks dirty. -/
def scaleF (factor : Vec3 K) (f : Frame K) : Frame K :=
  { f with scale := vmul f.scale factor, dirty := true }

/-- Transform::reset(): identity position/rotation/scale, marks dirty. -/
def resetF (f : Frame K) : Frame K :=
  { f with position := v0, rotation := qid, scale := v1, dirty := true }

/-- An object store: association list from object identity to Transform
state.  Models the heap of live Transform objects; identities are unique
(enforced by the consistency invariant below). -/
abbrev TState (K : Type) : Type := List (ℕ × Frame K)

/-- Dereference an object identity (first entry with the given key). -/
def findT (i : ℕ) : TState K → Option (Frame K)
  | [] => none
  | e :: rest => if e.1 = i then some e.2 else findT i rest

/-- Update the object with identity i in place (all entries with key i). -/
def updT (i : ℕ) (g : Frame K → Frame K) (s : TState K) : TState K :=
  s.map (fun e => if e.1 = i then (e.1, g e.2) else e)

/-- Deallocate the object with identity i. -/
def removeT (i : ℕ) (s : TState K) : TState K :=
  s.filter (fun e => e.1 ≠ i)

/-- The identities of the live objects. -/
def keysT (s : TState K) : List ℕ := s.map Prod.fst

/-- Children list of object i (empty when i is not live). -/
def childrenOf (s : TState K) (i : ℕ) : List ℕ :=
  match findT i s with
  | some f => f.children
  | none => []

/-- Parent pointer of object i, as observed through getParent():
none when i is not live or is a root. -/
def parentOf (s : TState K) (i : ℕ) : Option ℕ :=
  match findT i s with
  | some f => f.parent
  | none => none

/-- Transform::setPosition lifted to the store. -/
def setPositionS (i : ℕ) (p : Vec3 K) (s : TState K) : TState K :=
  updT i (setPosition p) s

/-- Transform::setParent(parent) on object i: no-op when the argument
equals the current parent; otherwise erase i from the old parent's
children (std::find + erase: first occurrence), store the new parent
pointer, append i to the new parent's children (push_back), and mark i
dirty (markDirty sets only the object's own flag). -/
def setParentS (i : ℕ) (p : Option ℕ) (s : TState K) : TState K :=
  match findT i s with
  | none => s
  | some f =>
    if f.parent = p then s
    else
      let s1 :=
        match f.parent with
        | some op => updT op (fun g => { g with children := g.children.erase i }) s
        | none => s
      let s2 := updT i (fun g => { g with parent := p, dirty := true }) s1
      match p with
      | some np => updT np (fun g => { g with children := g.children ++ [i] }) s2
      | none => s2

/-- Transform::addChild(child) on object i: guarded no-op when the child
pointer is this object itself (the null check of the C++ code has no
counterpart for identities); otherwise delegates to child.setParent(this). -/
def addChildS (i c : ℕ) (s : TState K) : TState K :=
  if c = i then s else setParentS c (some i) s

/-- Transform::removeChild(child) on object i: when the child is present
in the children list, erase it (first occurrence), clear the child's
parent pointer and mark the child dirty; otherwise no-op. -/
def removeChildS (i c : ℕ) (s : TState K) : TState K :=
  match findT i s with
  | none => s
  | some f =>
    if c ∈ f.children then
      let s1 := updT i (fun g => { g with children := g.children.erase c }) s
      updT c (fun g => { g with parent := none, dirty := true }) s1
    else s

/-- Transform::~Transform() on object i: clear the parent pointer of every
object in the children list (in list order), then deallocate i.  The
destructor does not mark the children dirty and does not detach i from
its own parent's children list. -/
def destroyS (i : ℕ) (s : TState K) : TState K :=
  match findT i s with
  | none => s
  | some f =>
    let s1 := f.children.foldl (fun acc c => updT c (fun g => { g with parent := none }) acc) s
    removeT i s1

/-- Transform::getWorldMatrix with an explicit recursion bound (the C++
code recurses through parent pointers without a bound; the fuel only
limits the modelled recursion depth and is chosen large enough in every
concrete statement).  When the object is clean the cached worldMatrix is
returned unchanged; when dirty, updateMatrices runs: the local matrix
T * R * S is computed and stored, the parent's getWorldMatrix is invoked
recursively (possibly mutating the store), worldMatrix is stored as
parentWorld * local (or local at a root), the dirty flag is cleared, and
every direct child is marked dirty. -/
def getWorldMatrixS : ℕ → ℕ → TState K → Mat4 K × TState K
  | 0, _, s => (mat4id, s)
  | fuel + 1, i, s =>
    match findT i s with
    | none => (mat4id, s)
    | some f =>
      if f.dirty then
        let lm := localMatrixOf f
        let s0 := updT i (fun g => { g with localMatrix := lm }) s
        let ws1 : Mat4 K × TState K :=
          match f.parent with
          | some p =>
            let pw := getWorldMatrixS fuel p s0
            (matMul pw.1 lm, pw.2)
          | none => (lm, s0)
        let s2 := updT i (fun g => { g with worldMatrix := ws1.1, dirty := false }) ws1.2
        let s3 := f.children.foldl (fun acc c => updT c (fun g => { g with dirty := true }) acc) s2
        (ws1.1, s3)
      else (f.worldMatrix, s)

/-- Bidirectional parent/child consistency: an identity i appears in the
children list of p exactly when the object i is live and its parent
pointer designates p. -/
def bidi (s : TState K) : Prop :=
  ∀ i p : ℕ,
    (∃ g, findT p s = some g ∧ i ∈ g.children) ↔
    (∃ f, findT i s = some f ∧ f.parent = some p)

/-- Well-formed object store: unique identities, duplicate-free children
lists, and bidirectional parent/child consistency. -/
def goodT (s : TState K) : Prop :=
  (keysT s).Nodup ∧
  (∀ i f, findT i s = some f → f.children.Nodup) ∧
  bidi s

/-- Object names (std::string contents). -/
abbrev ObjName : Type := List Char

/-- Decimal digit character of a digit value (48 is the code of the
character for zero). -/
def digitCh (d : ℕ) : Char := Char.ofNat (48 + d)

/-- The decimal representation produced by std::to_string for a natural
number: most-significant digit first, with the single digit for zero. -/
def natStr (n : ℕ) : ObjName :=
  if n = 0 then [Char.ofNat 48] else ((Nat.digits 10 n).reverse.map digitCh)

/-- SceneManager::generateUniqueName: base + "_" + std::to_string(counter). -/
def genName (base : ObjName) (c : ℕ) : ObjName :=
  base ++ Char.ofNat 95 :: natStr c

/-- The four shape kinds created by the SceneManager create-operations. -/
inductive ShapeKind where
  | Cube : ShapeKind
  | Sphere : ShapeKind
  | Cylinder : ShapeKind
  | LetterH : ShapeKind
deriving DecidableEq

/-- The base string passed by each create-operation to
generateUniqueName. -/
def baseName : ShapeKind → ObjName
  | ShapeKind.Cube => "Cube".toList
  | ShapeKind.Sphere => "Sphere".toList
  | ShapeKind.Cylinder => "Cylinder".toList
  | ShapeKind.LetterH => "LetterH".toList

/-- The m_namedObjects map of SceneManager, modelled as an association
list with unique keys. -/
abbrev NameMap : Type := List (ObjName × ℕ)

/-- Lookup in the name map (std::unordered_map::find). -/
def lookupName (nm : ObjName) : NameMap → Option ℕ
  | [] => none
  | e :: rest => if e.1 = nm then some e.2 else lookupName nm rest

/-- Insertion m_namedObjects[name] = obj: replaces the value of an
existing key, otherwise adds a new entry. -/
def mapInsert (nm : ObjName) (v : ℕ) : NameMap → NameMap
  | [] => [(nm, v)]
  | e :: rest => if e.1 = nm then (nm, v) :: rest else e :: mapInsert nm v rest

/-- Erase the entry of a key (std::unordered_map::erase(iterator) after a
successful find). -/
def eraseKey (nm : ObjName) : NameMap → NameMap
  | [] => []
  | e :: rest => if e.1 = nm then rest else e :: eraseKey nm rest

/-- Erase the first entry whose value is the given object (the scan of
m_namedObjects in SceneManager::removeObject(size_t)). -/
def eraseVal (v : ℕ) : NameMap → NameMap
  | [] => []
  | e :: rest => if e.2 = v then rest else e :: eraseVal v rest

/-- SceneManager state: the ordered owning collection m_objects (objects
modelled by numeric identities), the name map m_namedObjects, the
process-global static counter of generateUniqueName, and an allocation
counter producing fresh object identities. -/
structure RegState where
  objects : List ℕ
  named : NameMap
  counter : ℕ
  nextId : ℕ
deriving DecidableEq

/-- The name a create-operation assigns: the caller's name when nonempty,
otherwise generateUniqueName(base of the shape kind) with the current
counter. -/
def assignedName (kind : ShapeKind) (nm : ObjName) (s : RegState) : ObjName :=
  if nm = [] then genName (baseName kind) s.counter else nm

/-- Common body of SceneManager::createCube/createSphere/createCylinder/
createLetterH: constructs a fresh node, pushes it onto m_objects, binds
the computed name in m_namedObjects, and advances the static counter
exactly when a name was auto-generated. -/
def createObj (kind : ShapeKind) (nm : ObjName) (s : RegState) : RegState :=
  { objects := s.objects ++ [s.nextId],
    named := mapInsert (assignedName kind nm s) s.nextId s.named,
    counter := if nm = [] then s.counter + 1 else s.counter,
    nextId := s.nextId + 1 }

/-- SceneManager::getObject(name): map lookup, null when absent. -/
def getObjectByName (nm : ObjName) (s : RegState) : Option ℕ :=
  lookupName nm s.named

/-- SceneManager::getObject(index): bounds-checked vector access, null
when out of range. -/
def getObjectByIdx (idx : ℕ) (s : RegState) : Option ℕ :=
  s.objects.get? idx

/-- SceneManager::getObjectCount. -/
def getObjectCount (s : RegState) : ℕ := s.objects.length

/-- SceneManager::removeObject(name): when the name is mapped, erase the
map entry and the first matching entry of the vector; otherwise no-op. -/
def removeByName (nm : ObjName) (s : RegState) : RegState :=
  match lookupName nm s.named with
  | none => s
  | some oid =>
    { s with named := eraseKey nm s.named, objects := s.objects.erase oid }

/-- SceneManager::removeObject(index): when the index is in range, erase
the first map entry holding that object and the vector entry at the
index; otherwise no-op. -/
def removeByIdx (idx : ℕ) (s : RegState) : RegState :=
  match s.objects.get? idx with
  | none => s
  | some oid =>
    { s with named := eraseVal oid s.named, objects := s.objects.eraseIdx idx }

/-- SceneManager::clear: drops both collections; the static counter of
generateUniqueName is unaffected. -/
def clearR (s : RegState) : RegState :=
  { s with objects := [], named := [] }

/-- Registry operations relevant to name generation. -/
inductive RegOp where
  | create (kind : ShapeKind) (nm : ObjName) : RegOp
  | removeName (nm : ObjName) : RegOp
  | removeIdx (idx : ℕ) : RegOp
  | clearOp : RegOp

/-- Interpretation of one registry operation. -/
def applyOp (s : RegState) (op : RegOp) : RegState :=
  match op with
  | RegOp.create kind nm => createObj kind nm s
  | RegOp.removeName nm => removeByName nm s
  | RegOp.removeIdx idx => removeByIdx idx s
  | RegOp.clearOp => clearR s

/-- Interpretation of a sequence of registry operations. -/
def applyOps (ops : List RegOp) (s : RegState) : RegState :=
  ops.foldl applyOp s

/-- Concrete two-object scene for the parent-propagation test of the
spec: object 0 is the parent at position (5,0,0), object 1 the child at
local position (1,0,0), parented under 0. -/
def staleDemoWired : TState ℤ :=
  setParentS 1 (some 0)
    (setPositionS 1 ⟨1, 0, 0⟩ (setPositionS 0 ⟨5, 0, 0⟩ [(0, defaultFrame), (1, defaultFrame)]))

/-- First query of the child's world matrix (with ample fuel). -/
def staleDemoFirst : Mat4 ℤ × TState ℤ := getWorldMatrixS 10 1 staleDemoWired

/-- The parent is then moved to (10,0,0) through setPosition. -/
def staleDemoMoved : TState ℤ := setPositionS 0 ⟨10, 0, 0⟩ staleDemoFirst.2

/-- Second query of the child's world matrix after the parent moved. -/
def staleDemoSecond : Mat4 ℤ × TState ℤ := getWorldMatrixS 10 1 staleDemoMoved

/-- Three-object scene for the reparenting scenario: identities 0 (A),
1 (B) and 2 (the child frame), all initially roots. -/
def reparentDemoStart : TState ℤ := [(0, defaultFrame), (1, defaultFrame), (2, defaultFrame)]

/-- The child 2 parented under A (identity 0). -/
def reparentDemoA : TState ℤ := setParentS 2 (some 0) reparentDemoStart

/-- The child 2 reparented under B (identity 1). -/
def reparentDemoB : TState ℤ := setParentS 2 (some 1) reparentDemoA

/-- Two-object scene with 1 parented under 0, for the destruction
scenarios. -/
def destroyDemo : TState ℤ := setParentS 1 (some 0) [(0, defaultFrame), (1, defaultFrame)]

/-- The empty SceneManager (fresh registry, counter 0). -/
def initReg : RegState := ⟨[], [], 0, 0⟩

/-- A registry holding one auto-named cube and one object named ball. -/
def regDemo : RegState := createObj ShapeKind.Sphere "ball".toList (createObj ShapeKind.Cube [] initReg)

/-- C2.  Local matrix composition order: for every frame, the local
matrix computed by updateMatrices (T * R * S) applied to a point equals
position + R(scale * point), with R the quaternion rotation computed by
the independent glm quaternion-vector product; and at the concrete spec
instance p = (1,0,0), rotation 90 degrees about Y, s = (2,1,1), the local
matrix maps (1,0,0) to (1,0,-2) = p + R(S(1,0,0)). -/
theorem c2_local_matrix_trs_order :
    (∀ (f : Frame ℝ) (v : Vec3 ℝ),
      applyPoint (localMatrixOf f) v =
        vadd f.position (qrot f.rotation (vmul f.scale v))) ∧
    applyPoint
      (localMatrixOf
        (mkTransform (⟨1, 0, 0⟩ : Vec3 ℝ)
          ⟨Real.sqrt 2 / 2, 0, Real.sqrt 2 / 2, 0⟩ ⟨2, 1, 1⟩))
      ⟨1, 0, 0⟩ = ⟨1, 0, -2⟩ := by
  have h2 : Real.sqrt 2 * Real.sqrt 2 = 2 := Real.mul_self_sqrt (by norm_num)
  constructor
  · intro f v
    simp only [localMatrixOf, matMul, translateMat, scaleMat, mat4Cast,
      applyPoint, vadd, vmul, qrot, vcross, vsmul, Vec3.mk.injEq]
    refine ⟨by ring, by ring, by ring⟩
  · simp only [mkTransform, localMatrixOf, matMul, translateMat, scaleMat,
      mat4Cast, applyPoint, Vec3.mk.injEq]
    norm_num
    constructor
    · nlinarith [h2]
    · nlinarith [h2]

/-- C3.  Rotation-space composition order: rotate(d, LOCAL) stores
normalize(d * current) and rotate(d, WORLD) stores normalize(current * d);
the two orders genuinely differ: at current rotation j and delta i the
results are k and -k. -/
theorem c3_rotate_order :
    (∀ (f : Frame ℝ) (d : Quat ℝ),
      (rotateF Real.sqrt d Space.LOCAL f).rotation =
        qnormalize Real.sqrt (qmul d f.rotation) ∧
      (rotateF Real.sqrt d Space.WORLD f).rotation =
        qnormalize Real.sqrt (qmul f.rotation d)) ∧
    (rotateF Real.sqrt ⟨0, 1, 0, 0⟩ Space.LOCAL
        (mkTransform v0 (⟨0, 0, 1, 0⟩ : Quat ℝ) v1)).rotation ≠
      (rotateF Real.sqrt ⟨0, 1, 0, 0⟩ Space.WORLD
        (mkTransform v0 (⟨0, 0, 1, 0⟩ : Quat ℝ) v1)).rotation := by
  constructor
  · intro f d
    exact ⟨rfl, rfl⟩
  · simp only [rotateF, mkTransform, qmul, qnormalize, qnormSq, qsmul, qid,
      Quat.mk.injEq]
    norm_num [Real.sqrt_one]

/-- C4.  Translate-space semantics: translate(v, LOCAL) adds
rotation * v, translate(v, WORLD) adds v; at identity rotation the two
calls agree; after a 90-degree rotation about Y they differ, LOCAL moving
along the rotated local X-axis (0,0,-1). -/
theorem c4_translate_space :
    (∀ (f : Frame ℝ) (v : Vec3 ℝ),
      (translateF v Space.LOCAL f).position = vadd f.position (qrot f.rotation v) ∧
      (translateF v Space.WORLD f).position = vadd f.position v) ∧
    (∀ (f : Frame ℝ) (v : Vec3 ℝ), f.rotation = qid →
      translateF v Space.LOCAL f = translateF v Space.WORLD f) ∧
    ((translateF ⟨1, 0, 0⟩ Space.LOCAL
        (mkTransform v0 (⟨Real.sqrt 2 / 2, 0, Real.sqrt 2 / 2, 0⟩ : Quat ℝ) v1)).position =
      vadd v0 ⟨0, 0, -1⟩ ∧
     (translateF ⟨1, 0, 0⟩ Space.LOCAL
        (mkTransform v0 (⟨Real.sqrt 2 / 2, 0, Real.sqrt 2 / 2, 0⟩ : Quat ℝ) v1)).position ≠
      (translateF ⟨1, 0, 0⟩ Space.WORLD
        (mkTransform v0 (⟨Real.sqrt 2 / 2, 0, Real.sqrt 2 / 2, 0⟩ : Quat ℝ) v1)).position) := by
  have h2 : Real.sqrt 2 * Real.sqrt 2 = 2 := Real.mul_self_sqrt (by norm_num)
  refine ⟨fun f v => ⟨rfl, rfl⟩, ?_, ?_, ?_⟩
  · intro f v hrot
    have hq : qrot f.rotation v = v := by
      rcases v with ⟨vx, vy, vz⟩
      rw [hrot]
      simp only [qrot, qid, vcross, vadd, vsmul, Vec3.mk.injEq]
      refine ⟨by ring, by ring, by ring⟩
    simp only [translateF, hq]
  · simp only [translateF, mkTransform, qrot, vadd, vsmul, vcross, v0, v1,
      Vec3.mk.injEq]
    refine ⟨by nlinarith [h2], by ring, by nlinarith [h2]⟩
  · intro h
    simp only [translateF, mkTransform, qrot, vadd, vsmul, vcross, v0, v1,
      Vec3.mk.injEq] at h
    obtain ⟨hx, -, -⟩ := h
    nlinarith [h2]

/-- C4 witness: the identity-rotation conjunct applied at the default
frame and the vector (1,2,3). -/
theorem c4_translate_space_witness :
    translateF ⟨1, 2, 3⟩ Space.LOCAL (defaultFrame : Frame ℝ) =
      translateF ⟨1, 2, 3⟩ Space.WORLD defaultFrame :=
  c4_translate_space.2.1 defaultFrame ⟨1, 2, 3⟩ rfl

/-- C1 evidence (code bug).  In the spec's own parent-propagation
scenario the first child query correctly yields world position (6,0,0),
but after the parent moves to (10,0,0) the child is still marked clean
(markDirty does not descend into children, contradicting its header
comment), so the second query returns the stale (6,0,0) cached matrix
instead of the (11,0,0) the spec requires. -/
theorem c1_stale_child_world_matrix :
    applyPoint staleDemoFirst.1 v0 = ⟨6, 0, 0⟩ ∧
    (findT 1 staleDemoMoved).map Frame.dirty = some false ∧
    (findT 0 staleDemoMoved).map Frame.position = some ⟨10, 0, 0⟩ ∧
    parentOf staleDemoMoved 1 = some 0 ∧
    applyPoint staleDemoSecond.1 v0 = ⟨6, 0, 0⟩ ∧
    applyPoint staleDemoSecond.1 v0 ≠ ⟨11, 0, 0⟩ := by
  decide

/-- Lookup misses when no entry carries the key. -/
theorem lookupName_eq_none (nm : ObjName) :
    ∀ m : NameMap, (∀ e ∈ m, e.1 ≠ nm) → lookupName nm m = none := by
  intro m
  induction m with
  | nil => intro _; rfl
  | cons e rest ih =>
    intro h
    simp only [lookupName]
    rw [if_neg (h e (by simp))]
    exact ih fun x hx => h x (by simp [hx])

/-- Lookup after insertion of the same key finds the inserted value. -/
theorem lookupName_mapInsert (nm : ObjName) (v : ℕ) :
    ∀ m : NameMap, lookupName nm (mapInsert nm v m) = some v := by
  intro m
  induction m with
  | nil => simp [mapInsert, lookupName]
  | cons e rest ih =>
    simp only [mapInsert]
    by_cases he : e.1 = nm
    · rw [if_pos he]
      simp [lookupName]
    · rw [if_neg he]
      simp only [lookupName]
      rw [if_neg he]
      exact ih

/-- C6.  Registry lookup and removal error handling: unknown-name and
out-of-range lookups return the null sentinel, removal of an unknown name
is a silent no-op, each create grows the count by exactly one, and each
successful removal (by mapped name or by in-range index) shrinks it by
exactly one. -/
theorem c6_registry_error_handling :
    (∀ (s : RegState) (nm : ObjName), (∀ e ∈ s.named, e.1 ≠ nm) →
      getObjectByName nm s = none) ∧
    (∀ (s : RegState) (idx : ℕ), getObjectCount s ≤ idx →
      getObjectByIdx idx s = none) ∧
    (∀ (s : RegState) (nm : ObjName), (∀ e ∈ s.named, e.1 ≠ nm) →
      removeByName nm s = s) ∧
    (∀ (s : RegState) (kind : ShapeKind) (nm : ObjName),
      getObjectCount (createObj kind nm s) = getObjectCount s + 1) ∧
    (∀ (s : RegState) (nm : ObjName) (oid : ℕ), lookupName nm s.named = some oid →
      oid ∈ s.objects → getObjectCount (removeByName nm s) + 1 = getObjectCount s) ∧
    (∀ (s : RegState) (idx : ℕ), idx < getObjectCount s →
      getObjectCount (removeByIdx idx s) + 1 = getObjectCount s) := by
  refine ⟨?_, ?_, ?_, ?_, ?_, ?_⟩
  · intro s nm h
    unfold getObjectByName
    exact lookupName_eq_none nm s.named h
  · intro s idx h
    unfold getObjectByIdx
    exact List.get?_eq_none.mpr h
  · intro s nm h
    unfold removeByName
    rw [lookupName_eq_none nm s.named h]
  · intro s kind nm
    simp [createObj, getObjectCount]
  · intro s nm oid hl hm
    unfold removeByName
    rw [hl]
    simp only [getObjectCount]
    have h1 := List.length_erase_of_mem hm
    have h2 : 0 < s.objects.length := List.length_pos_of_mem hm
    simp only [h1]
    omega
  · intro s idx h
    unfold removeByIdx
    have hg : s.objects.get? idx = some (s.objects.get ⟨idx, h⟩) := List.get?_eq_get h
    rw [hg]
    simp only [getObjectCount]
    exact List.length_eraseIdx_add_one h

/-- C6 witness: lookup of an unbound name in a concrete registry yields
the null sentinel. -/
theorem c6_registry_error_handling_witness :
    getObjectByName "zz".toList regDemo = none :=
  c6_registry_error_handling.1 regDemo "zz".toList (by decide)

/-- The digit-character encoding is injective on digit values. -/
theorem digitCh_inj_lt : ∀ a, a < 10 → ∀ b, b < 10 → digitCh a = digitCh b → a = b := by
  decide

/-- Mapping the digit-character encoding over digit lists is injective. -/
theorem map_digitCh_inj :
    ∀ l1 l2 : List ℕ, (∀ d ∈ l1, d < 10) → (∀ d ∈ l2, d < 10) →
      l1.map digitCh = l2.map digitCh → l1 = l2 := by
  intro l1
  induction l1 with
  | nil =>
    intro l2 _ _ h
    cases l2 with
    | nil => rfl
    | cons b t => simp at h
  | cons a t ih =>
    intro l2 h1 h2 h
    cases l2 with
    | nil => simp at h
    | cons b t2 =>
      simp only [List.map_cons, List.cons.injEq] at h
      have ha := digitCh_inj_lt a (h1 a (by simp)) b (h2 b (by simp)) h.1
      subst ha
      rw [ih t2 (fun d hd => h1 d (by simp [hd])) (fun d hd => h2 d (by simp [hd])) h.2]

/-- Every digit produced by Nat.digits at base 10 is below 10. -/
theorem digits_lt_ten (n : ℕ) : ∀ d ∈ (Nat.digits 10 n).reverse, d < 10 := by
  intro d hd
  exact Nat.digits_lt_base (by norm_num) (List.mem_reverse.mp hd)

/-- The modelled std::to_string is injective. -/
theorem natStr_inj : ∀ m n : ℕ, natStr m = natStr n → m = n := by
  have zeroCase : ∀ n : ℕ, n ≠ 0 → [Char.ofNat 48] = (Nat.digits 10 n).reverse.map digitCh → False := by
    intro n hn h
    have h0 : ([0] : List ℕ).map digitCh = (Nat.digits 10 n).reverse.map digitCh := by
      simpa [digitCh] using h
    have he := map_digitCh_inj [0] (Nat.digits 10 n).reverse (by simp)
      (digits_lt_ten n) h0
    have hd : Nat.digits 10 n = [0] := by
      have := congrArg List.reverse he
      simpa using this.symm
    have hv := Nat.ofDigits_digits 10 n
    rw [hd] at hv
    simp [Nat.ofDigits] at hv
    exact hn hv.symm
  intro m n h
  unfold natStr at h
  by_cases hm : m = 0 <;> by_cases hn : n = 0
  · rw [hm, hn]
  · rw [if_pos hm, if_neg hn] at h
    exact absurd (zeroCase n hn h) not_false
  · rw [if_neg hm, if_pos hn] at h
    exact absurd (zeroCase m hm h.symm) not_false
  · rw [if_neg hm, if_neg hn] at h
    have he := map_digitCh_inj (Nat.digits 10 m).reverse (Nat.digits 10 n).reverse
      (digits_lt_ten m) (digits_lt_ten n) h
    have hd : Nat.digits 10 m = Nat.digits 10 n := by
      have := congrArg List.reverse he
      simpa using this
    rw [← Nat.ofDigits_digits 10 m, ← Nat.ofDigits_digits 10 n, hd]

/-- Splitting at a separator character that occurs in neither prefix is
unambiguous. -/
theorem sep_split :
    ∀ (l1 l2 r1 r2 : List Char) (c : Char), c ∉ l1 → c ∉ l2 →
      l1 ++ c :: r1 = l2 ++ c :: r2 → l1 = l2 ∧ r1 = r2 := by
  intro l1
  induction l1 with
  | nil =>
    intro l2 r1 r2 c h1 h2 h
    cases l2 with
    | nil => simpa using h
    | cons b t =>
      simp only [List.nil_append, List.cons_append, List.cons.injEq] at h
      exact absurd (by simp [h.1] : c ∈ b :: t) h2
  | cons a t ih =>
    intro l2 r1 r2 c h1 h2 h
    cases l2 with
    | nil =>
      simp only [List.cons_append, List.nil_append, List.cons.injEq] at h
      exact absurd (by simp [h.1] : c ∈ a :: t) h1
    | cons b t2 =>
      simp only [List.cons_append, List.cons.injEq] at h
      obtain ⟨hab, htail⟩ := h
      have ht := ih t2 r1 r2 c (fun hc => h1 (by simp [hc])) (fun hc => h2 (by simp [hc])) htail
      exact ⟨by rw [hab, ht.1], ht.2⟩

/-- generateUniqueName output determines base and counter, provided the
base contains no separator character. -/
theorem genName_inj :
    ∀ (b1 b2 : ObjName) (c1 c2 : ℕ), Char.ofNat 95 ∉ b1 → Char.ofNat 95 ∉ b2 →
      genName b1 c1 = genName b2 c2 → b1 = b2 ∧ c1 = c2 := by
  intro b1 b2 c1 c2 h1 h2 h
  unfold genName at h
  obtain ⟨hb, hr⟩ := sep_split b1 b2 (natStr c1) (natStr c2) (Char.ofNat 95) h1 h2 h
  exact ⟨hb, natStr_inj _ _ hr⟩

/-- None of the four create-operation base strings contains the
separator character. -/
theorem baseName_no_sep : ∀ k : ShapeKind, Char.ofNat 95 ∉ baseName k := by
  intro k
  cases k <;> decide

/-- No registry operation ever decreases the static name counter. -/
theorem counter_le_applyOp (s : RegState) (op : RegOp) :
    s.counter ≤ (applyOp s op).counter := by
  cases op with
  | create kind nm =>
    simp only [applyOp, createObj]
    split <;> omega
  | removeName nm =>
    simp only [applyOp, removeByName]
    cases h : lookupName nm s.named <;> simp [h]
  | removeIdx idx =>
    simp only [applyOp, removeByIdx]
    cases h : s.objects.get? idx <;> simp [h]
  | clearOp => simp [applyOp, clearR]

/-- The name counter is monotone along every operation sequence. -/
theorem counter_le_applyOps :
    ∀ (ops : List RegOp) (s : RegState), s.counter ≤ (applyOps ops s).counter := by
  intro ops
  induction ops with
  | nil => intro s; exact le_refl _
  | cons op rest ih =>
    intro s
    exact le_trans (counter_le_applyOp s op) (ih (applyOp s op))

/-- C7.  Auto-generated name uniqueness: a create-operation called with
the empty name assigns base_counter with the current process-global
counter, registers exactly that name, and advances the counter; the
counter is monotone and never reused, so any two empty-name creates, in
any order, across removals and across shape kinds, receive distinct
names. -/
theorem c7_autogenerated_name_uniqueness :
    (∀ (s : RegState) (kind : ShapeKind),
      assignedName kind [] s = genName (baseName kind) s.counter ∧
      (createObj kind [] s).counter = s.counter + 1 ∧
      getObjectByName (assignedName kind [] s) (createObj kind [] s) = some s.nextId) ∧
    (∀ (s : RegState) (k1 k2 : ShapeKind) (ops : List RegOp),
      assignedName k1 [] s ≠
        assignedName k2 [] (applyOps ops (createObj k1 [] s))) := by
  constructor
  · intro s kind
    refine ⟨rfl, by simp [createObj], ?_⟩
    simp only [getObjectByName, createObj]
    exact lookupName_mapInsert _ _ _
  · intro s k1 k2 ops h
    have h1 := genName_inj _ _ _ _ (baseName_no_sep k1) (baseName_no_sep k2)
      (by simpa [assignedName] using h)
    have h2 : s.counter + 1 ≤ (applyOps ops (createObj k1 [] s)).counter := by
      have h3 := counter_le_applyOps ops (createObj k1 [] s)
      simpa [createObj] using h3
    have h4 := h1.2
    omega

/-- Dereference after an in-place update: the updated frame at the
updated identity, untouched frames elsewhere. -/
theorem findT_updT (i j : ℕ) (g : Frame K → Frame K) :
    ∀ s : TState K,
      findT j (updT i g s) = if j = i then (findT j s).map g else findT j s := by
  intro s
  induction s with
  | nil =>
    simp only [updT, List.map_nil, findT]
    split <;> rfl
  | cons e rest ih =>
    simp only [updT, List.map_cons] at ih ⊢
    by_cases hei : e.1 = i
    · by_cases hji : j = i
      · subst hji
        simp [findT, hei]
      · have hej : ¬ e.1 = j := fun hh => hji (hh ▸ hei : j = i)
        have hij : ¬ i = j := fun hh => hji hh.symm
        simp [findT, hei, hej, hji, hij, ih]
    · by_cases hej : e.1 = j
      · have hji : ¬ j = i := fun hh => hei (by rw [hej, hh])
        simp [findT, hei, hej, hji]
      · simp only [findT, if_neg (by simpa using hej), ih]
        split <;> simp [findT, if_neg hej]

/-- Updates do not change the set of live identities. -/
theorem keysT_updT (i : ℕ) (g : Frame K → Frame K) (s : TState K) :
    keysT (updT i g s) = keysT s := by
  simp only [keysT, updT, List.map_map]
  congr 1
  funext e
  simp only [Function.comp_apply]
  split <;> rfl

/-- Dereference after deallocation. -/
theorem findT_removeT (i j : ℕ) :
    ∀ s : TState K, findT j (removeT i s) = if j = i then none else findT j s := by
  intro s
  induction s with
  | nil =>
    simp only [removeT, List.filter_nil, findT]
    split <;> rfl
  | cons e rest ih =>
    simp only [removeT, List.filter_cons] at ih ⊢
    by_cases hei : e.1 = i
    · rw [if_neg (by simp [hei] : ¬ decide (e.1 ≠ i) = true)]
      rw [ih]
      by_cases hji : j = i
      · simp [hji]
      · have hej : ¬ e.1 = j := fun hh => hji (hh ▸ hei)
        simp [hji, findT, hej]
    · rw [if_pos (by simp [hei] : decide (e.1 ≠ i) = true)]
      simp only [findT]
      by_cases hej : e.1 = j
      · have hji : ¬ j = i := fun hh => hei (by rw [hej, hh])
        simp [hej, hji]
      · rw [ih]
        simp [hej]

/-- A successful dereference corresponds to a store entry. -/
theorem findT_mem : ∀ (s : TState K) (i : ℕ) (f : Frame K),
    findT i s = some f → (i, f) ∈ s := by
  intro s
  induction s with
  | nil => intro i f h; exact absurd h (by simp [findT])
  | cons e rest ih =>
    intro i f h
    simp only [findT] at h
    by_cases hei : e.1 = i
    · rw [if_pos hei] at h
      have hf : f = e.2 := (Option.some.injEq _ _ |>.mp h).symm
      have : (i, f) = e := by rw [hf, ← hei]
      rw [this]
      exact List.mem_cons_self e rest
    · rw [if_neg hei] at h
      exact List.mem_cons_of_mem e (ih i f h)

/-- With unique identities a store entry is what dereference returns. -/
theorem mem_findT_of_nodup : ∀ (s : TState K), (keysT s).Nodup →
    ∀ (i : ℕ) (f : Frame K), (i, f) ∈ s → findT i s = some f := by
  intro s
  induction s with
  | nil => intro _ i f h; exact absurd h (by simp)
  | cons e rest ih =>
    intro hnd i f h
    simp only [keysT, List.map_cons, List.nodup_cons] at hnd
    rcases List.mem_cons.mp h with he | hr
    · simp [findT, ← he]
    · have hik : i ∈ keysT rest := by
        simpa [keysT] using List.mem_map_of_mem Prod.fst hr
      have hei : ¬ e.1 = i := fun hh => hnd.1 (by simpa [keysT, hh] using hik)
      simp only [findT, if_neg hei]
      exact ih hnd.2 i f hr

/-- Dereference after the destructor's loop that clears the parent
pointer of every listed child. -/
theorem findT_foldl_clear (l : List ℕ) :
    ∀ (s : TState K) (j : ℕ),
      findT j (l.foldl (fun acc c => updT c (fun g => { g with parent := none }) acc) s) =
        if j ∈ l then (findT j s).map (fun g => { g with parent := none })
        else findT j s := by
  induction l with
  | nil => intro s j; simp
  | cons a t ih =>
    intro s j
    simp only [List.foldl_cons]
    rw [ih]
    by_cases hja : j = a
    · subst hja
      rw [findT_updT]
      simp only [if_pos rfl, List.mem_cons, true_or, if_pos]
      split
      · cases findT j s <;> rfl
      · rfl
    · rw [findT_updT, if_neg hja]
      simp [List.mem_cons, hja]

/-- Dereference after Transform::~Transform() on object i. -/
theorem findT_destroyS (i : ℕ) (s : TState K) (f : Frame K)
    (hf : findT i s = some f) (j : ℕ) :
    findT j (destroyS i s) =
      if j = i then none
      else if j ∈ f.children then
        (findT j s).map (fun g => { g with parent := none })
      else findT j s := by
  unfold destroyS
  rw [hf]
  simp only
  rw [findT_removeT, findT_foldl_clear]

/-- C9.  Destruction orphaning: destroying an object clears the parent
pointer of every object in its children list; each surviving former
child observes getParent() == null afterwards. -/
theorem c9_destruction_orphans_children :
    ∀ (s : TState ℤ) (i : ℕ) (f : Frame ℤ) (c : ℕ) (g : Frame ℤ),
      findT i s = some f → c ∈ f.children → c ≠ i → findT c s = some g →
      (findT c (destroyS i s)).map Frame.parent = some none := by
  intro s i f c g hf hc hci hg
  rw [findT_destroyS i s f hf c, if_neg hci, if_pos hc, hg]
  rfl

/-- C9 witness: destroying the parent (identity 0) of the concrete
two-object scene leaves the child (identity 1) a root. -/
theorem c9_destruction_orphans_children_witness :
    (findT 1 (destroyS 0 destroyDemo)).map Frame.parent = some none :=
  c9_destruction_orphans_children destroyDemo 0
    { position := v0, rotation := qid, scale := v1,
      localMatrix := mat4id, worldMatrix := mat4id,
      dirty := true, parent := none, children := [1] } 1
    { position := v0, rotation := qid, scale := v1,
      localMatrix := mat4id, worldMatrix := mat4id,
      dirty := true, parent := some 0, children := [] }
    (by decide) (by decide) (by decide) (by decide)

/-- The well-formedness invariant restated with store-bounded quantifiers
only, hence decidable at concrete stores. -/
theorem goodT_iff_dec (s : TState K) :
    goodT s ↔
      ((keysT s).Nodup ∧
       (∀ e ∈ s, e.2.children.Nodup) ∧
       (∀ e ∈ s, e.2.parent = none ∨
         ∃ pe ∈ s, e.2.parent = some pe.1 ∧ e.1 ∈ pe.2.children) ∧
       (∀ e ∈ s, ∀ c ∈ e.2.children, ∃ ce ∈ s, ce.1 = c ∧ ce.2.parent = some e.1)) := by
  constructor
  · rintro ⟨hnd, hcn, hbd⟩
    refine ⟨hnd, ?_, ?_, ?_⟩
    · intro e he
      exact hcn e.1 e.2 (mem_findT_of_nodup s hnd e.1 e.2 (by simpa using he))
    · intro e he
      cases hp : e.2.parent with
      | none => exact Or.inl rfl
      | some p =>
        obtain ⟨g, hgp, hmem⟩ := (hbd e.1 p).mpr
          ⟨e.2, mem_findT_of_nodup s hnd e.1 e.2 (by simpa using he), hp⟩
        exact Or.inr ⟨(p, g), findT_mem s p g hgp, by simp [hp], hmem⟩
    · intro e he c hc
      obtain ⟨f2, hf2, hp2⟩ := (hbd c e.1).mp
        ⟨e.2, mem_findT_of_nodup s hnd e.1 e.2 (by simpa using he), hc⟩
      exact ⟨(c, f2), findT_mem s c f2 hf2, rfl, hp2⟩
  · rintro ⟨hnd, hcn, hpar, hchild⟩
    refine ⟨hnd, ?_, ?_⟩
    · intro i f hf
      exact hcn (i, f) (findT_mem s i f hf)
    · intro a b
      constructor
      · rintro ⟨g, hg, hmem⟩
        obtain ⟨ce, hce, hc1, hc2⟩ := hchild (b, g) (findT_mem s b g hg) a hmem
        have hfa : findT a s = some ce.2 := by
          rw [← hc1]
          exact mem_findT_of_nodup s hnd ce.1 ce.2 (by simpa using hce)
        exact ⟨ce.2, hfa, hc2⟩
      · rintro ⟨f2, hf2, hp2⟩
        rcases hpar (a, f2) (findT_mem s a f2 hf2) with hnone | ⟨pe, hpe, hps, hpm⟩
        · simp only at hnone
          rw [hnone] at hp2
          exact absurd hp2 (by simp)
        · simp only at hps hpm
          have hb : pe.1 = b := by
            rw [hps] at hp2
            exact (Option.some.injEq _ _ |>.mp hp2)
          have hfb : findT b s = some pe.2 := by
            rw [← hb]
            exact mem_findT_of_nodup s hnd pe.1 pe.2 (by simpa using hpe)
          exact ⟨pe.2, hfb, hpm⟩

/-- C10.  Implicit destruction defect: destroying an object that still
has a live parent does not detach it from that parent's children list;
the surviving parent keeps an entry for the dead identity and the
bidirectional consistency invariant no longer holds. -/
theorem c10_destructor_keeps_parent_side_entry :
    ∀ (s : TState ℤ) (i p : ℕ) (f : Frame ℤ),
      goodT s → findT i s = some f → f.parent = some p → p ≠ i →
      i ∈ childrenOf (destroyS i s) p ∧
      findT i (destroyS i s) = none ∧
      ¬ bidi (destroyS i s) := by
  intro s i p f hg hf hp hpi
  obtain ⟨hnd, hcn, hbd⟩ := hg
  obtain ⟨g, hgp, hmem⟩ := (hbd i p).mpr ⟨f, hf, hp⟩
  have hchar := findT_destroyS i s f hf
  have hpnew : findT p (destroyS i s) =
      if p ∈ f.children then some { g with parent := none } else some g := by
    rw [hchar p, if_neg hpi, hgp]
    split <;> rfl
  have hmem2 : i ∈ childrenOf (destroyS i s) p := by
    unfold childrenOf
    rw [hpnew]
    by_cases hpc : p ∈ f.children
    · rw [if_pos hpc]
      exact hmem
    · rw [if_neg hpc]
      exact hmem
  have hinone : findT i (destroyS i s) = none := by
    rw [hchar i, if_pos rfl]
  refine ⟨hmem2, hinone, ?_⟩
  intro hb
  have hex : ∃ g2, findT p (destroyS i s) = some g2 ∧ i ∈ g2.children := by
    rw [hpnew]
    split
    · exact ⟨_, rfl, hmem⟩
    · exact ⟨_, rfl, hmem⟩
  obtain ⟨f2, hf2, -⟩ := (hb i p).mp hex
  rw [hinone] at hf2
  exact Option.noConfusion hf2

/-- C10 witness: destroying the child (identity 1) of the concrete
two-object scene leaves the surviving parent 0 with a children entry for
the dead identity. -/
theorem c10_destructor_keeps_parent_side_entry_witness :
    1 ∈ childrenOf (destroyS 1 destroyDemo) 0 ∧
    findT 1 (destroyS 1 destroyDemo) = none ∧
    ¬ bidi (destroyS 1 destroyDemo) :=
  c10_destructor_keeps_parent_side_entry destroyDemo 1 0
    { position := v0, rotation := qid, scale := v1,
      localMatrix := mat4id, worldMatrix := mat4id,
      dirty := true, parent := some 0, children := [] }
    ((goodT_iff_dec destroyDemo).mpr (by decide))
    (by decide) (by decide) (by decide)

/-- Dereference after Transform::setParent in the mutating case: the
frame i gets the new parent pointer and dirty flag; the old parent (when
any) loses the first occurrence of i in its children; the new parent
(when any) gains i at the end of its children. -/
theorem findT_setParentS (s : TState K) (i : ℕ) (p : Option ℕ) (f : Frame K)
    (hfi : findT i s = some f) (hfp : ¬ f.parent = p) (j : ℕ) :
    findT j (setParentS i p s) =
      (findT j s).map (fun g =>
        { g with
          parent := if j = i then p else g.parent,
          dirty := if j = i then true else g.dirty,
          children := (if f.parent = some j then g.children.erase i else g.children) ++
            (if p = some j then [i] else []) }) := by
  simp only [setParentS, hfi]
  rw [if_neg hfp]
  cases hop : f.parent with
  | none =>
    cases hp : p with
    | none => exact absurd (hop.trans hp.symm) hfp
    | some np =>
      rw [findT_updT, findT_updT]
      by_cases h2 : j = i
      · subst h2
        by_cases h1 : j = np
        · subst h1
          cases hjs : findT j s <;> simp [hjs]
        · have h1a : ¬ np = j := fun hh => h1 hh.symm
          cases hjs : findT j s <;> simp [hjs, h1, h1a]
      · by_cases h1 : j = np
        · subst h1
          cases hjs : findT j s <;> simp [hjs, h2]
        · have h1a : ¬ np = j := fun hh => h1 hh.symm
          cases hjs : findT j s <;> simp [hjs, h1, h1a, h2]
  | some op =>
    cases hp : p with
    | none =>
      rw [findT_updT, findT_updT]
      by_cases h2 : j = i
      · subst h2
        by_cases h3 : j = op
        · subst h3
          cases hjs : findT j s <;> simp [hjs]
        · have h3a : ¬ op = j := fun hh => h3 hh.symm
          cases hjs : findT j s <;> simp [hjs, h3, h3a]
      · by_cases h3 : j = op
        · subst h3
          cases hjs : findT j s <;> simp [hjs, h2]
        · have h3a : ¬ op = j := fun hh => h3 hh.symm
          cases hjs : findT j s <;> simp [hjs, h2, h3, h3a]
    | some np =>
      have hopnp : op ≠ np := fun hh => hfp (by rw [hop, hh, hp])
      rw [findT_updT, findT_updT, findT_updT]
      by_cases h2 : j = i
      · subst h2
        by_cases h1 : j = np
        · subst h1
          have h3 : ¬ j = op := fun hh => hopnp hh.symm
          have h3a : ¬ op = j := hopnp
          cases hjs : findT j s <;> simp [hjs, h3, h3a]
        · by_cases h3 : j = op
          · subst h3
            have h1a : ¬ np = j := fun hh => h1 hh.symm
            cases hjs : findT j s <;> simp [hjs, h1, h1a]
          · have h1a : ¬ np = j := fun hh => h1 hh.symm
            have h3a : ¬ op = j := fun hh => h3 hh.symm
            cases hjs : findT j s <;> simp [hjs, h1, h1a, h3, h3a]
      · by_cases h1 : j = np
        · subst h1
          have h3 : ¬ j = op := fun hh => hopnp hh.symm
          have h3a : ¬ op = j := hopnp
          cases hjs : findT j s <;> simp [hjs, h2, h3, h3a]
        · by_cases h3 : j = op
          · subst h3
            have h1a : ¬ np = j := fun hh => h1 hh.symm
            cases hjs : findT j s <;> simp [hjs, h1, h1a, h2]
          · have h1a : ¬ np = j := fun hh => h1 hh.symm
            have h3a : ¬ op = j := fun hh => h3 hh.symm
            cases hjs : findT j s <;> simp [hjs, h1, h1a, h2, h3, h3a]

/-- setParent does not change the set of live identities. -/
theorem keysT_setParentS (s : TState K) (i : ℕ) (p : Option ℕ) :
    keysT (setParentS i p s) = keysT s := by
  cases hfi : findT i s with
  | none => simp only [setParentS, hfi]
  | some f =>
    by_cases hfp : f.parent = p
    · simp only [setParentS, hfi, if_pos hfp]
    · simp only [setParentS, hfi, if_neg hfp]
      cases f.parent <;> cases p <;> simp [keysT_updT]

/-- Transform::setParent preserves the well-formedness invariant, given
that a non-null new parent is a live object. -/
theorem setParentS_goodT (s : TState K) (i : ℕ) (p : Option ℕ)
    (hg : goodT s) (hex : ∀ np, p = some np → ∃ g, findT np s = some g) :
    goodT (setParentS i p s) := by
  obtain ⟨hnd, hcn, hbd⟩ := hg
  cases hfi : findT i s with
  | none =>
    simp only [setParentS, hfi]
    exact ⟨hnd, hcn, hbd⟩
  | some f =>
    by_cases hfp : f.parent = p
    · simp only [setParentS, hfi, if_pos hfp]
      exact ⟨hnd, hcn, hbd⟩
    · have hchar := findT_setParentS s i p f hfi hfp
      have hknd : (keysT (setParentS i p s)).Nodup := by
        rw [keysT_setParentS]
        exact hnd
      refine ⟨hknd, ?_, ?_⟩
      · intro j g2 hj
        rw [hchar j] at hj
        cases hjs : findT j s with
        | none =>
          rw [hjs] at hj
          exact absurd hj (by simp)
        | some g =>
          rw [hjs] at hj
          simp only [Option.map_some', Option.some.injEq] at hj
          have hgnd := hcn j g hjs
          have hbase : (if f.parent = some j then g.children.erase i else g.children).Nodup := by
            split
            · exact hgnd.erase i
            · exact hgnd
          rw [← hj]
          show ((if f.parent = some j then g.children.erase i else g.children) ++
            (if p = some j then [i] else [])).Nodup
          by_cases hpj : p = some j
          · have hib : i ∉ (if f.parent = some j then g.children.erase i else g.children) := by
              split
              · intro hmem
                exact ((List.Nodup.mem_erase_iff hgnd).mp hmem).1 rfl
              · intro hmem
                rename_i hfj
                obtain ⟨f2, hf2, hp2⟩ := (hbd i j).mp ⟨g, hjs, hmem⟩
                rw [hfi] at hf2
                obtain rfl : f = f2 := (Option.some.injEq _ _).mp hf2
                exact hfj hp2
            rw [if_pos hpj]
            exact List.Nodup.append hbase (List.nodup_singleton i)
              ((List.disjoint_singleton).mpr hib)
          · rw [if_neg hpj, List.append_nil]
            exact hbase
      · intro a b
        constructor
        · rintro ⟨g2, hg2, hmem⟩
          rw [hchar b] at hg2
          cases hbs : findT b s with
          | none =>
            rw [hbs] at hg2
            exact absurd hg2 (by simp)
          | some gb =>
            rw [hbs] at hg2
            simp only [Option.map_some', Option.some.injEq] at hg2
            rw [← hg2] at hmem
            replace hmem : a ∈ (if f.parent = some b then gb.children.erase i else gb.children) ++
              (if p = some b then [i] else []) := hmem
            rcases List.mem_append.mp hmem with hL | hR
            · by_cases hai : a = i
              · subst hai
                exfalso
                by_cases hfb : f.parent = some b
                · rw [if_pos hfb] at hL
                  exact ((List.Nodup.mem_erase_iff (hcn b gb hbs)).mp hL).1 rfl
                · rw [if_neg hfb] at hL
                  obtain ⟨f2, hf2, hp2⟩ := (hbd a b).mp ⟨gb, hbs, hL⟩
                  rw [hfi] at hf2
                  obtain rfl : f = f2 := (Option.some.injEq _ _).mp hf2
                  exact hfb hp2
              · have haold : a ∈ gb.children := by
                  by_cases hfb : f.parent = some b
                  · rw [if_pos hfb] at hL
                    exact List.mem_of_mem_erase hL
                  · rw [if_neg hfb] at hL
                    exact hL
                obtain ⟨fa, hfa, hpa⟩ := (hbd a b).mp ⟨gb, hbs, haold⟩
                refine ⟨_, by rw [hchar a, hfa]; rfl, ?_⟩
                show (if a = i then p else fa.parent) = some b
                rw [if_neg hai]
                exact hpa
            · have hpb : p = some b := by
                by_cases hq : p = some b
                · exact hq
                · rw [if_neg hq] at hR
                  exact absurd hR (by simp)
              have hab : a = i := by
                rw [if_pos hpb] at hR
                simpa using hR
              subst hab
              refine ⟨_, by rw [hchar a, hfi]; rfl, ?_⟩
              show (if a = a then p else f.parent) = some b
              rw [if_pos rfl]
              exact hpb
        · rintro ⟨f2, hf2, hpar2⟩
          rw [hchar a] at hf2
          cases has : findT a s with
          | none =>
            rw [has] at hf2
            exact absurd hf2 (by simp)
          | some fa =>
            rw [has] at hf2
            simp only [Option.map_some', Option.some.injEq] at hf2
            rw [← hf2] at hpar2
            replace hpar2 : (if a = i then p else fa.parent) = some b := hpar2
            by_cases hai : a = i
            · rw [if_pos hai] at hpar2
              obtain ⟨gb, hgb⟩ := hex b hpar2
              refine ⟨_, by rw [hchar b, hgb]; rfl, ?_⟩
              show a ∈ (if f.parent = some b then gb.children.erase i else gb.children) ++
                (if p = some b then [i] else [])
              exact List.mem_append_right _ (by simp [hpar2, hai])
            · rw [if_neg hai] at hpar2
              obtain ⟨gb, hgb, hmemold⟩ := (hbd a b).mpr ⟨fa, has, hpar2⟩
              refine ⟨_, by rw [hchar b, hgb]; rfl, ?_⟩
              show a ∈ (if f.parent = some b then gb.children.erase i else gb.children) ++
                (if p = some b then [i] else [])
              refine List.mem_append_left _ ?_
              split
              · exact (List.mem_erase_of_ne hai).mpr hmemold
              · exact hmemold

/-- Dereference after Transform::removeChild in the removing case. -/
theorem findT_removeChildS (s : TState K) (i c : ℕ) (f : Frame K)
    (hfi : findT i s = some f) (hc : c ∈ f.children) (j : ℕ) :
    findT j (removeChildS i c s) =
      (findT j s).map (fun g =>
        { g with
          parent := if j = c then none else g.parent,
          dirty := if j = c then true else g.dirty,
          children := if j = i then g.children.erase c else g.children }) := by
  simp only [removeChildS, hfi, if_pos hc]
  rw [findT_updT, findT_updT]
  by_cases h1 : j = c
  · subst h1
    by_cases h2 : j = i
    · subst h2
      cases hjs : findT j s <;> simp [hjs]
    · cases hjs : findT j s <;> simp [hjs, h2]
  · by_cases h2 : j = i
    · subst h2
      cases hjs : findT j s <;> simp [hjs, h1]
    · cases hjs : findT j s <;> simp [hjs, h1, h2]

/-- removeChild does not change the set of live identities. -/
theorem keysT_removeChildS (s : TState K) (i c : ℕ) :
    keysT (removeChildS i c s) = keysT s := by
  cases hfi : findT i s with
  | none => simp only [removeChildS, hfi]
  | some f =>
    by_cases hc : c ∈ f.children
    · simp only [removeChildS, hfi, if_pos hc, keysT_updT]
    · simp only [removeChildS, hfi, if_neg hc]

/-- Transform::removeChild preserves the well-formedness invariant. -/
theorem removeChildS_goodT (s : TState K) (i c : ℕ) (hg : goodT s) :
    goodT (removeChildS i c s) := by
  obtain ⟨hnd, hcn, hbd⟩ := hg
  cases hfi : findT i s with
  | none =>
    simp only [removeChildS, hfi]
    exact ⟨hnd, hcn, hbd⟩
  | some f =>
    by_cases hc : c ∈ f.children
    case neg =>
      simp only [removeChildS, hfi, if_neg hc]
      exact ⟨hnd, hcn, hbd⟩
    case pos =>
    have hchar := findT_removeChildS s i c f hfi hc
    have hknd : (keysT (removeChildS i c s)).Nodup := by
      rw [keysT_removeChildS]
      exact hnd
    refine ⟨hknd, ?_, ?_⟩
    · intro j g2 hj
      rw [hchar j] at hj
      cases hjs : findT j s with
      | none =>
        rw [hjs] at hj
        exact absurd hj (by simp)
      | some g =>
        rw [hjs] at hj
        simp only [Option.map_some', Option.some.injEq] at hj
        rw [← hj]
        show (if j = i then g.children.erase c else g.children).Nodup
        have hgnd := hcn j g hjs
        split
        · exact hgnd.erase c
        · exact hgnd
    · intro a b
      constructor
      · rintro ⟨g2, hg2, hmem⟩
        rw [hchar b] at hg2
        cases hbs : findT b s with
        | none =>
          rw [hbs] at hg2
          exact absurd hg2 (by simp)
        | some gb =>
          rw [hbs] at hg2
          simp only [Option.map_some', Option.some.injEq] at hg2
          rw [← hg2] at hmem
          replace hmem : a ∈ (if b = i then gb.children.erase c else gb.children) := hmem
          have haold : a ∈ gb.children := by
            revert hmem
            split
            · exact fun hh => List.mem_of_mem_erase hh
            · exact id
          obtain ⟨fa, hfa, hpa⟩ := (hbd a b).mp ⟨gb, hbs, haold⟩
          by_cases hac : a = c
          · exfalso
            obtain ⟨fc, hfc, hpc⟩ := (hbd c i).mp ⟨f, hfi, hc⟩
            rw [hac] at hfa
            rw [hfa] at hfc
            obtain rfl : fa = fc := (Option.some.injEq _ _).mp hfc
            have hbi : b = i := by
              rw [hpa] at hpc
              exact (Option.some.injEq _ _).mp hpc
            subst hbi
            rw [if_pos rfl] at hmem
            rw [hac] at hmem
            exact ((List.Nodup.mem_erase_iff (hcn b gb hbs)).mp hmem).1 rfl
          · refine ⟨_, by rw [hchar a, hfa]; rfl, ?_⟩
            show (if a = c then none else fa.parent) = some b
            rw [if_neg hac]
            exact hpa
      · rintro ⟨f2, hf2, hpar2⟩
        rw [hchar a] at hf2
        cases has : findT a s with
        | none =>
          rw [has] at hf2
          exact absurd hf2 (by simp)
        | some fa =>
          rw [has] at hf2
          simp only [Option.map_some', Option.some.injEq] at hf2
          rw [← hf2] at hpar2
          replace hpar2 : (if a = c then none else fa.parent) = some b := hpar2
          by_cases hac : a = c
          · rw [if_pos hac] at hpar2
            exact absurd hpar2 (by simp)
          · rw [if_neg hac] at hpar2
            obtain ⟨gb, hgb, hmemold⟩ := (hbd a b).mpr ⟨fa, has, hpar2⟩
            refine ⟨_, by rw [hchar b, hgb]; rfl, ?_⟩
            show a ∈ (if b = i then gb.children.erase c else gb.children)
            split
            · exact (List.mem_erase_of_ne hac).mpr hmemold
            · exact hmemold

/-- Transform::addChild preserves the well-formedness invariant (the
receiver must be live, as it is in the C++ code where it is the this
pointer). -/
theorem addChildS_goodT (s : TState K) (i c : ℕ) (hg : goodT s)
    (hex : ∃ g, findT i s = some g) : goodT (addChildS i c s) := by
  unfold addChildS
  split
  · exact hg
  · refine setParentS_goodT s c (some i) hg ?_
    intro np hnp
    obtain rfl : i = np := Option.some.injEq _ _ |>.mp hnp
    exact hex

/-- C5.  Bidirectional parent/child consistency: the well-formedness
invariant (a frame is in its parent's children collection exactly when
its parent pointer designates that parent, with unique identities and
duplicate-free children lists) is preserved by setParent, addChild and
removeChild; setParent is a no-op when the argument equals the current
parent; and in the concrete reparenting scenario, after
child.setParent(A) then child.setParent(B), A no longer lists the child,
B does, and the child's parent is B. -/
theorem c5_bidirectional_consistency :
    (∀ (s : TState ℤ) (i : ℕ) (p : Option ℕ), goodT s →
      (∀ np, p = some np → ∃ g, findT np s = some g) →
      goodT (setParentS i p s)) ∧
    (∀ (s : TState ℤ) (i c : ℕ), goodT s → (∃ g, findT i s = some g) →
      goodT (addChildS i c s)) ∧
    (∀ (s : TState ℤ) (i c : ℕ), goodT s → goodT (removeChildS i c s)) ∧
    (∀ (s : TState ℤ) (i : ℕ) (p : Option ℕ) (f : Frame ℤ),
      findT i s = some f → f.parent = p → setParentS i p s = s) ∧
    (2 ∉ childrenOf reparentDemoB 0 ∧ 2 ∈ childrenOf reparentDemoB 1 ∧
      parentOf reparentDemoB 2 = some 1 ∧ goodT reparentDemoB) := by
  refine ⟨fun s i p hg hex => setParentS_goodT s i p hg hex,
    fun s i c hg hex => addChildS_goodT s i c hg hex,
    fun s i c hg => removeChildS_goodT s i c hg, ?_, ?_⟩
  · intro s i p f hfi hfp
    simp only [setParentS, hfi, if_pos hfp]
  · exact ⟨by decide, by decide, by decide, (goodT_iff_dec reparentDemoB).mpr (by decide)⟩

/-- C5 witness: the preservation conjunct applied to the concrete
three-object scene when parenting the child under A. -/
theorem c5_bidirectional_consistency_witness :
    goodT (setParentS 2 (some 0) reparentDemoStart) :=
  c5_bidirectional_consistency.1 reparentDemoStart 2 (some 0)
    ((goodT_iff_dec reparentDemoStart).mpr (by decide))
    (fun np hnp => by
      obtain rfl : (0 : ℕ) = np := Option.some.injEq _ _ |>.mp hnp
      exact ⟨defaultFrame, by decide⟩)

/-- glm quaternion normalization always yields a unit quaternion over the
reals: the guard returns the identity for the degenerate zero quaternion,
and otherwise the division by the exact square root normalizes. -/
theorem qnormSq_qnormalize (q : Quat ℝ) : qnormSq (qnormalize Real.sqrt q) = 1 := by
  unfold qnormalize
  by_cases h : Real.sqrt (qnormSq q) ≤ 0
  · rw [if_pos h]
    show qnormSq qid = 1
    simp [qnormSq, qid]
  · rw [if_neg h]
    push_neg at h
    have hd : 0 ≤ qnormSq q := by
      unfold qnormSq
      nlinarith [mul_self_nonneg q.w, mul_self_nonneg q.x, mul_self_nonneg q.y,
        mul_self_nonneg q.z]
    have hsq : Real.sqrt (qnormSq q) * Real.sqrt (qnormSq q) = qnormSq q :=
      Real.mul_self_sqrt hd
    have hne : qnormSq q ≠ 0 := by nlinarith [h, hsq]
    show qnormSq (qsmul (1 / Real.sqrt (qnormSq q)) q) = 1
    have expand : qnormSq (qsmul (1 / Real.sqrt (qnormSq q)) q) =
        1 / Real.sqrt (qnormSq q) * (1 / Real.sqrt (qnormSq q)) * qnormSq q := by
      simp only [qnormSq, qsmul]
      ring
    rw [expand, div_mul_div_comm, one_mul, hsq]
    exact one_div_mul_cancel hne

/-- The glm Euler-angle quaternion constructor yields a unit quaternion. -/
theorem qnormSq_eulerToQuat (e : Vec3 ℝ) :
    qnormSq (eulerToQuat Real.cos Real.sin e) = 1 := by
  have hx : Real.cos (e.x / 2) ^ 2 + Real.sin (e.x / 2) ^ 2 = 1 :=
    Real.cos_sq_add_sin_sq (e.x / 2)
  have hy : Real.cos (e.y / 2) ^ 2 + Real.sin (e.y / 2) ^ 2 = 1 :=
    Real.cos_sq_add_sin_sq (e.y / 2)
  have hz : Real.cos (e.z / 2) ^ 2 + Real.sin (e.z / 2) ^ 2 = 1 :=
    Real.cos_sq_add_sin_sq (e.z / 2)
  unfold eulerToQuat qnormSq
  simp only
  linear_combination
    ((Real.cos (e.y / 2) ^ 2 + Real.sin (e.y / 2) ^ 2) *
      (Real.cos (e.z / 2) ^ 2 + Real.sin (e.z / 2) ^ 2)) * hx +
    (Real.cos (e.z / 2) ^ 2 + Real.sin (e.z / 2) ^ 2) * hy + hz

/-- C8 counterexample: the parameterized constructor stores the given
quaternion without normalizing, so constructing with rotation (2,0,0,0)
leaves a rotation of squared length 4, not a unit quaternion. -/
theorem c8_param_ctor_not_unit :
    qnormSq (mkTransform v0 (⟨2, 0, 0, 0⟩ : Quat ℝ) v1).rotation ≠ 1 := by
  show qnormSq (⟨2, 0, 0, 0⟩ : Quat ℝ) ≠ 1
  simp only [qnormSq]
  norm_num

/-- C8 amended.  The rotation is unit-length after every mutating
operation: setRotation (quaternion and Euler forms), rotate (quaternion
and axis-angle forms) always produce a unit quaternion (the glm normalize
guard covers even the zero quaternion); translate, scale, setScale and
setPosition leave the rotation untouched; reset and default construction
give the identity; and the parameterized constructor preserves
unit-length only when its argument is already unit (it does not
normalize). -/
theorem c8_unit_rotation_invariant :
    (∀ (f : Frame ℝ) (q : Quat ℝ),
      qnormSq (setRotationQ Real.sqrt q f).rotation = 1) ∧
    (∀ (f : Frame ℝ) (e : Vec3 ℝ),
      qnormSq (setRotationEuler Real.cos Real.sin Real.pi e f).rotation = 1) ∧
    (∀ (f : Frame ℝ) (d : Quat ℝ) (sp : Space),
      qnormSq (rotateF Real.sqrt d sp f).rotation = 1) ∧
    (∀ (f : Frame ℝ) (axis : Vec3 ℝ) (ang : ℝ) (sp : Space),
      qnormSq (rotateAxisF Real.sqrt Real.cos Real.sin Real.pi axis ang sp f).rotation = 1) ∧
    (∀ (f : Frame ℝ) (v : Vec3 ℝ) (sp : Space),
      (translateF v sp f).rotation = f.rotation) ∧
    (∀ (f : Frame ℝ) (v : Vec3 ℝ),
      (scaleF v f).rotation = f.rotation ∧
      (setScale v f).rotation = f.rotation ∧
      (setPosition v f).rotation = f.rotation) ∧
    (∀ f : Frame ℝ, (resetF f).rotation = qid) ∧
    (defaultFrame : Frame ℝ).rotation = qid ∧
    qnormSq (qid : Quat ℝ) = 1 ∧
    (∀ (p : Vec3 ℝ) (q : Quat ℝ) (s : Vec3 ℝ),
      qnormSq q = 1 → qnormSq (mkTransform p q s).rotation = 1) := by
  refine ⟨?_, ?_, ?_, ?_, ?_, ?_, ?_, rfl, by simp [qnormSq, qid], ?_⟩
  · intro f q
    exact qnormSq_qnormalize q
  · intro f e
    exact qnormSq_eulerToQuat _
  · intro f d sp
    cases sp <;> exact qnormSq_qnormalize _
  · intro f axis ang sp
    unfold rotateAxisF
    cases sp <;> exact qnormSq_qnormalize _
  · intro f v sp
    cases sp <;> rfl
  · intro f v
    exact ⟨rfl, rfl, rfl⟩
  · intro f
    rfl
  · intro p q s hq
    exact hq

/-- C8 witness: the parameterized-constructor conjunct applied to the
identity quaternion, which is unit. -/
theorem c8_unit_rotation_invariant_witness :
    qnormSq (mkTransform v0 (qid : Quat ℝ) v1).rotation = 1 :=
  c8_unit_rotation_invariant.2.2.2.2.2.2.2.2.2 v0 qid v1 (by simp [qnormSq, qid])
